import Mathlib

/-!
Shallow embedding of the linear-algebra-rs repository (src/linnum.rs and
src/matrix.rs) and verification of the frozen claims about it.

Modelling conventions:
* Rust i128 is modelled as the unbounded integers ZZ.  The repository spec
  only promises at-least-128-bit integers and no claim depends on overflow,
  so the idealisation is harmless for the properties settled here.
* Rust f64 is modelled as the structure F64 wrapping an exact rational
  value.  No settled claim depends on floating rounding: all the float
  facts proved below are structural (which variant results, which float
  operation is applied to which converted operands).
* Rust i128 division truncates toward zero, which is Int.tdiv.
* Rust integer division by zero aborts the process.  The only division in
  linnum.rs whose divisor can be zero is the division by the gcd inside
  new_rational; the predicate rationalAborts records exactly when that
  abort happens (gcd = 0, i.e. both arguments are 0).  The total Lean
  functions return the junk value Rational 0 0 at those inputs.
* Rust Vec indexing data[i] aborts when i is out of range and is modelled
  by the Option valued getq / setq; the total get / set used inside the
  matrix algorithms coincide with the Rust code at every in-range access.
-/

/-- Model of the Rust f64 payload: an exact rational stand-in for the
floating value.  Only its constructor structure matters for the claims. -/
structure F64 where
  val : ℚ
deriving DecidableEq

instance : Add F64 := ⟨fun a b => ⟨a.val + b.val⟩⟩

instance : Sub F64 := ⟨fun a b => ⟨a.val - b.val⟩⟩

instance : Mul F64 := ⟨fun a b => ⟨a.val * b.val⟩⟩

instance : Div F64 := ⟨fun a b => ⟨a.val / b.val⟩⟩

/-- Float constant 0.0. -/
def f0 : F64 := ⟨0⟩

/-- Float constant 1.0. -/
def f1 : F64 := ⟨1⟩

/-- Float constant -1.0. -/
def fm1 : F64 := ⟨-1⟩

/-- Model of the Rust cast pair num as f64 / den as f64 used whenever a
Rational operand is converted to floating point. -/
def ratToF64 (n d : ℤ) : F64 := ⟨(n : ℚ) / (d : ℚ)⟩

/-- The LinNum scalar from src/linnum.rs: the enum LinNumWrapper fused with
its single-field wrapper struct LinNum. -/
inductive LinNum where
  | Rational (num den : ℤ)
  | Real (val : F64)
deriving DecidableEq

/-- Abort predicate for LinNum::new_rational: the Rust gcd of i128 is the
nonnegative gcd, and the subsequent i128 divisions numerator / gcd and
denominator / gcd abort (division by zero) exactly when the gcd is 0. -/
def rationalAborts (n d : ℤ) : Bool := Int.gcd n d == 0

/-- LinNum::new_rational from src/linnum.rs lines 38-45: divide both
components by their (nonnegative) gcd using truncated division. -/
def LinNum.new_rational (n d : ℤ) : LinNum :=
  .Rational (n.tdiv (Int.gcd n d)) (d.tdiv (Int.gcd n d))

/-- LinNum::new_real from src/linnum.rs lines 56-60. -/
def LinNum.new_real (v : F64) : LinNum := .Real v

/-- LinNum::is_rational from src/linnum.rs lines 67-69. -/
def LinNum.is_rational : LinNum → Bool
  | .Rational _ _ => true
  | .Real _ => false

/-- LinNum::is_real from src/linnum.rs lines 76-78. -/
def LinNum.is_real : LinNum → Bool
  | .Rational _ _ => false
  | .Real _ => true

/-- impl Add for LinNum, src/linnum.rs lines 158-178. -/
def LinNum.add : LinNum → LinNum → LinNum
  | .Rational n1 d1, .Rational n2 d2 => new_rational (n1 * d2 + n2 * d1) (d1 * d2)
  | .Real v1, .Rational n2 d2 => new_real (v1 + ratToF64 n2 d2)
  | .Rational n1 d1, .Real v2 => new_real (ratToF64 n1 d1 + v2)
  | .Real v1, .Real v2 => new_real (v1 + v2)

/-- impl Sub for LinNum, src/linnum.rs lines 188-207. -/
def LinNum.sub : LinNum → LinNum → LinNum
  | .Rational n1 d1, .Rational n2 d2 => new_rational (n1 * d2 - n2 * d1) (d1 * d2)
  | .Real v1, .Rational n2 d2 => new_real (v1 - ratToF64 n2 d2)
  | .Rational n1 d1, .Real v2 => new_real (ratToF64 n1 d1 - v2)
  | .Real v1, .Real v2 => new_real (v1 - v2)

/-- impl Mul for LinNum, src/linnum.rs lines 209-228. -/
def LinNum.mul : LinNum → LinNum → LinNum
  | .Rational n1 d1, .Rational n2 d2 => new_rational (n1 * n2) (d1 * d2)
  | .Real v1, .Real v2 => new_real (v1 * v2)
  | .Real v1, .Rational n2 d2 => new_real (v1 * ratToF64 n2 d2)
  | .Rational n1 d1, .Real v2 => new_real (ratToF64 n1 d1 * v2)

/-- impl Div for LinNum, src/linnum.rs lines 230-249. -/
def LinNum.div : LinNum → LinNum → LinNum
  | .Rational n1 d1, .Rational n2 d2 => new_rational (n1 * d2) (d1 * n2)
  | .Real v1, .Real v2 => new_real (v1 / v2)
  | .Real v1, .Rational n2 d2 => new_real (v1 / ratToF64 n2 d2)
  | .Rational n1 d1, .Real v2 => new_real (ratToF64 n1 d1 / v2)

instance : Add LinNum := ⟨LinNum.add⟩

instance : Sub LinNum := ⟨LinNum.sub⟩

instance : Mul LinNum := ⟨LinNum.mul⟩

instance : Div LinNum := ⟨LinNum.div⟩

/-- Abort predicate for the addition of two LinNums: true exactly when the
Rust impl Add aborts, namely when both operands are Rational and the
new_rational call inside it divides by a zero gcd. -/
def LinNum.addAborts : LinNum → LinNum → Bool
  | .Rational n1 d1, .Rational n2 d2 => rationalAborts (n1 * d2 + n2 * d1) (d1 * d2)
  | _, _ => false

/-- Abort predicate for the subtraction of two LinNums, as for addAborts. -/
def LinNum.subAborts : LinNum → LinNum → Bool
  | .Rational n1 d1, .Rational n2 d2 => rationalAborts (n1 * d2 - n2 * d1) (d1 * d2)
  | _, _ => false

/-- Abort predicate for the multiplication of two LinNums. -/
def LinNum.mulAborts : LinNum → LinNum → Bool
  | .Rational n1 d1, .Rational n2 d2 => rationalAborts (n1 * n2) (d1 * d2)
  | _, _ => false

/-- Abort predicate for the division of two LinNums. -/
def LinNum.divAborts : LinNum → LinNum → Bool
  | .Rational n1 d1, .Rational n2 d2 => rationalAborts (n1 * d2) (d1 * n2)
  | _, _ => false

/-- Numerator of a stored Rational (0 for a Real); extractor used to state
the lowest-terms invariant. -/
def LinNum.ratNum : LinNum → ℤ
  | .Rational n _ => n
  | .Real _ => 0

/-- Denominator of a stored Rational (0 for a Real). -/
def LinNum.ratDen : LinNum → ℤ
  | .Rational _ d => d
  | .Real _ => 0

/-- Well-formedness of a scalar in the sense of the data model of the spec:
a Rational whose stored denominator is nonzero. -/
def LinNum.isGoodRat : LinNum → Bool
  | .Rational _ d => d != 0
  | .Real _ => false

/-- Mathematical value denoted by a scalar: num/den for a Rational, the
wrapped value for a Real.  Used to state exactness claims. -/
def LinNum.ratVal : LinNum → ℚ
  | .Rational n d => (n : ℚ) / (d : ℚ)
  | .Real v => v.val

/-- The MatrixError enum from src/matrix.rs lines 13-16. -/
inductive MatrixError where
  | DimensionMismatch
deriving DecidableEq

deriving instance DecidableEq for Except

/-- The LinMatrix struct from src/matrix.rs lines 18-24: a flat row-major
list of scalars together with the two dimensions. -/
structure LinMatrix where
  rows : ℕ
  cols : ℕ
  data : List LinNum
deriving DecidableEq

/-- LinMatrix::new from src/matrix.rs lines 37-43: rows*cols cells, each
Real(0.0). -/
def LinMatrix.new (R C : ℕ) : LinMatrix :=
  ⟨R, C, List.replicate (R * C) (.Real f0)⟩

/-- Total version of LinMatrix::get (src/matrix.rs lines 85-87): flat index
row * cols + col.  At in-range indices it agrees with the Rust code; out of
range it returns a junk Real 0 where Rust aborts (see getq). -/
def LinMatrix.get (m : LinMatrix) (r c : ℕ) : LinNum :=
  (m.data[r * m.cols + c]?).getD (.Real f0)

/-- Abort-aware LinMatrix::get: none models the Vec index abort. -/
def LinMatrix.getq (m : LinMatrix) (r c : ℕ) : Option LinNum :=
  m.data[r * m.cols + c]?

/-- Total version of LinMatrix::set (src/matrix.rs lines 96-98); List.set
leaves the list unchanged out of range where Rust aborts (see setq). -/
def LinMatrix.set (m : LinMatrix) (r c : ℕ) (v : LinNum) : LinMatrix :=
  ⟨m.rows, m.cols, m.data.set (r * m.cols + c) v⟩

/-- Abort-aware LinMatrix::set: none models the Vec index abort. -/
def LinMatrix.setq (m : LinMatrix) (r c : ℕ) (v : LinNum) : Option LinMatrix :=
  if r * m.cols + c < m.data.length then some (m.set r c v) else none

/-- Inner loop of the cell-filling pattern shared by the binary and scalar
matrix operations: for j in 0..J set (i, j) to f i j. -/
def fillInner (f : ℕ → ℕ → LinNum) (i : ℕ) (res : LinMatrix) : ℕ → LinMatrix
  | 0 => res
  | j + 1 => (fillInner f i res j).set i j (f i j)

/-- Outer loop of the cell-filling pattern: for i in 0..I run the inner
loop over columns 0..C. -/
def fillOuter (f : ℕ → ℕ → LinNum) (C : ℕ) (res : LinMatrix) : ℕ → LinMatrix
  | 0 => res
  | i + 1 => fillInner f i (fillOuter f C res i) C

/-- The double set loop over a fresh zero matrix used by add, sub, mul and
the scalar operations of src/matrix.rs. -/
def fillMatrix (R C : ℕ) (f : ℕ → ℕ → LinNum) : LinMatrix :=
  fillOuter f C (LinMatrix.new R C) R

/-- impl Add for LinMatrix, src/matrix.rs lines 167-181. -/
def LinMatrix.addM (a b : LinMatrix) : Except MatrixError LinMatrix :=
  if a.rows ≠ b.rows ∨ a.cols ≠ b.cols then .error .DimensionMismatch
  else .ok (fillMatrix a.rows a.cols (fun i j => a.get i j + b.get i j))

/-- impl Sub for LinMatrix, src/matrix.rs lines 196-210. -/
def LinMatrix.subM (a b : LinMatrix) : Except MatrixError LinMatrix :=
  if a.rows ≠ b.rows ∨ a.cols ≠ b.cols then .error .DimensionMismatch
  else .ok (fillMatrix a.rows a.cols (fun i j => a.get i j - b.get i j))

/-- Dot product accumulation loop of impl Mul of two LinMatrix values,
src/matrix.rs lines 282-285: sum starts at Real(0.0). -/
def dotLoop (a b : LinMatrix) (i j : ℕ) : ℕ → LinNum
  | 0 => .Real f0
  | k + 1 => dotLoop a b i j k + a.get i k * b.get k j

/-- impl Mul of two LinMatrix values, src/matrix.rs lines 273-291. -/
def LinMatrix.mulM (a b : LinMatrix) : Except MatrixError LinMatrix :=
  if a.cols ≠ b.rows then .error .DimensionMismatch
  else .ok (fillMatrix a.rows b.cols (fun i j => dotLoop a b i j a.cols))

/-- Result extractor for mulM, used to name the product matrix in closed
statements; returns a junk empty matrix in the error case. -/
def LinMatrix.mulRes (a b : LinMatrix) : LinMatrix :=
  match a.mulM b with
  | .ok m => m
  | .error _ => LinMatrix.new 0 0

/-- impl Mul of LinMatrix by LinNum, src/matrix.rs lines 225-237. -/
def LinMatrix.scalarMul (m : LinMatrix) (s : LinNum) : LinMatrix :=
  fillMatrix m.rows m.cols (fun i j => m.get i j * s)

/-- impl Div of LinMatrix by LinNum, src/matrix.rs lines 249-261. -/
def LinMatrix.scalarDiv (m : LinMatrix) (s : LinNum) : LinMatrix :=
  fillMatrix m.rows m.cols (fun i j => m.get i j / s)

/-- Inner loop of LinMatrix::transpose, src/matrix.rs lines 105-113: for j
in 0..J set (j, i) of the result to the original (i, j). -/
def transInner (m : LinMatrix) (i : ℕ) (res : LinMatrix) : ℕ → LinMatrix
  | 0 => res
  | j + 1 => (transInner m i res j).set j i (m.get i j)

/-- Outer loop of LinMatrix::transpose over the source rows. -/
def transOuter (m : LinMatrix) (res : LinMatrix) : ℕ → LinMatrix
  | 0 => res
  | i + 1 => transInner m i (transOuter m res i) m.cols

/-- LinMatrix::transpose, src/matrix.rs lines 105-113. -/
def LinMatrix.transpose (m : LinMatrix) : LinMatrix :=
  transOuter m (LinMatrix.new m.cols m.rows) m.rows

/-- Row filling loop of LinMatrix::from: sets the cells of row i from the
given list, aborting (none) when a set goes out of the flat range. -/
def fromRowLoop (i : ℕ) : List LinNum → ℕ → LinMatrix → Option LinMatrix
  | [], _, m => some m
  | v :: rest, j, m => (m.setq i j v).bind (fromRowLoop i rest (j + 1))

/-- Outer loop of LinMatrix::from over the input rows. -/
def fromLoop : List (List LinNum) → ℕ → LinMatrix → Option LinMatrix
  | [], _, m => some m
  | r :: rest, i, m => (fromRowLoop i r 0 m).bind (fromLoop rest (i + 1))

/-- LinMatrix::from, src/matrix.rs lines 58-68 (from is a Lean keyword, so
the definition is named fromRows): dimensions are taken from the outer
length and the first row length; an empty input aborts at data[0]. -/
def LinMatrix.fromRows : List (List LinNum) → Option LinMatrix
  | [] => none
  | r0 :: rest => fromLoop (r0 :: rest) 0 (LinMatrix.new (r0 :: rest).length r0.length)

/-- Inner loop of the minor construction inside LinMatrix::determinant,
src/matrix.rs lines 137-145: for k in 0..K copy cell (j, k) of the source
into (j-1, k) when k < i and into (j-1, k-1) when k > i, skipping k = i. -/
def subInner (m : LinMatrix) (i j : ℕ) (res : LinMatrix) : ℕ → LinMatrix
  | 0 => res
  | k + 1 =>
    if k < i then (subInner m i j res k).set (j - 1) k (m.get j k)
    else if i < k then (subInner m i j res k).set (j - 1) (k - 1) (m.get j k)
    else subInner m i j res k

/-- Outer loop of the minor construction: source rows j = 1 .. rows-1,
iteration t handles row j = t + 1. -/
def subOuter (m : LinMatrix) (i : ℕ) (res : LinMatrix) : ℕ → LinMatrix
  | 0 => res
  | t + 1 => subInner m i (t + 1) (subOuter m i res t) m.cols

/-- The minor sub_matrix built for column i inside determinant. -/
def subMatrixAt (m : LinMatrix) (i : ℕ) : LinMatrix :=
  subOuter m i (LinMatrix.new (m.rows - 1) (m.cols - 1)) (m.rows - 1)

/-- The alternating sign factor of the cofactor expansion, as the code
computes it: the float literal 1.0 for even columns and -1.0 for odd ones,
wrapped by the lnum macro into Real. -/
def detTermSign (i : ℕ) : LinNum :=
  .Real (if i % 2 = 0 then f1 else fm1)

/-- The accumulation loop of determinant (src/matrix.rs lines 135-148):
det starts at Real(0.0) and each column i adds cell (0,i) times the minor
determinant times the sign; the question-mark operator propagates the first
error of a recursive call. -/
def detSumLoop (recur : LinMatrix → Except MatrixError LinNum) (m : LinMatrix) :
    ℕ → Except MatrixError LinNum
  | 0 => .ok (.Real f0)
  | i + 1 =>
    (detSumLoop recur m i).bind fun acc =>
      (recur (subMatrixAt m i)).map fun d => acc + m.get 0 i * d * detTermSign i

/-- Fuelled version of LinMatrix::determinant (src/matrix.rs lines
121-150).  The fuel only bounds the recursion depth: determinant always
calls it with fuel = rows + 1, each recursive call keeps fuel = rows + 1
for the minor, and the fuel-0 fallback is unreachable from determinant. -/
def detAux : ℕ → LinMatrix → Except MatrixError LinNum
  | fuel, m =>
    if m.rows ≠ m.cols then .error .DimensionMismatch
    else if m.rows = 1 then .ok (m.get 0 0)
    else if m.rows = 2 then
      .ok (m.get 0 0 * m.get 1 1 - m.get 0 1 * m.get 1 0)
    else
      match fuel with
      | 0 => .error .DimensionMismatch
      | f + 1 => detSumLoop (detAux f) m m.cols

/-- LinMatrix::determinant, src/matrix.rs lines 121-150. -/
def LinMatrix.determinant (m : LinMatrix) : Except MatrixError LinNum :=
  detAux (m.rows + 1) m

/-- Value extractor for determinant results (junk Real 0 on error). -/
def detVal (m : LinMatrix) : LinNum :=
  match m.determinant with
  | .ok v => v
  | .error _ => .Real f0

/-- Determinant of the minor at column i, as a plain scalar. -/
def minorDet (m : LinMatrix) (i : ℕ) : LinNum := detVal (subMatrixAt m i)

/-- The sum the cofactor claim describes: over columns i of the first row,
cell (0,i) times the minor determinant times the alternating sign,
accumulated left to right from Real(0.0). -/
def detClaimSum (m : LinMatrix) : ℕ → LinNum
  | 0 => .Real f0
  | i + 1 => detClaimSum m i + m.get 0 i * minorDet m i * detTermSign i

/-- Matrix-level abort predicate for elementwise addition: true when the
shapes agree but some cell addition inside the fill loop aborts. -/
def LinMatrix.addAbortsM (a b : LinMatrix) : Bool :=
  (a.rows == b.rows && a.cols == b.cols) &&
    (List.range a.rows).any fun i =>
      (List.range a.cols).any fun j => (a.get i j).addAborts (b.get i j)

/-- Mathematical determinant of a square matrix of size 1 or 2, on the
denoted rational values of the cells. -/
def mdet2 (m : LinMatrix) : ℚ :=
  if m.rows = 1 then (m.get 0 0).ratVal
  else (m.get 0 0).ratVal * (m.get 1 1).ratVal - (m.get 0 1).ratVal * (m.get 1 0).ratVal

/-- Concrete 2x2 rational matrix used by witnesses: 1 2 / 3 4. -/
def exm2 : LinMatrix :=
  ⟨2, 2, [.Rational 1 1, .Rational 2 1, .Rational 3 1, .Rational 4 1]⟩

/-- Concrete 3x3 rational matrix 1..9 used by witnesses. -/
def exm3 : LinMatrix :=
  ⟨3, 3, [.Rational 1 1, .Rational 2 1, .Rational 3 1,
          .Rational 4 1, .Rational 5 1, .Rational 6 1,
          .Rational 7 1, .Rational 8 1, .Rational 9 1]⟩

/-- Concrete 1x1 matrices used by witnesses. -/
def exa1 : LinMatrix := ⟨1, 1, [.Rational 2 1]⟩

/-- Second concrete 1x1 matrix used by witnesses. -/
def exb1 : LinMatrix := ⟨1, 1, [.Rational 3 1]⟩

/-! Helper lemmas about the basic accessors and the fill loops. -/

theorem flatIndex_inj {C a b c d : ℕ} (hb : b < C) (hd : d < C)
    (h : a * C + b = c * C + d) : a = c ∧ b = d := by
  rcases Nat.lt_trichotomy a c with hac | hac | hac
  · exfalso
    have h2 : a + 1 ≤ c := hac
    have h1 : a * C + C ≤ c * C := by
      calc a * C + C = (a + 1) * C := by ring
        _ ≤ c * C := Nat.mul_le_mul_right C h2
    omega
  · subst hac
    omega
  · exfalso
    have h2 : c + 1 ≤ a := hac
    have h1 : c * C + C ≤ a * C := by
      calc c * C + C = (c + 1) * C := by ring
        _ ≤ a * C := Nat.mul_le_mul_right C h2
    omega

theorem flatIndex_lt {R C i j : ℕ} (hi : i < R) (hj : j < C) :
    i * C + j < R * C := by
  have h1 : i * C + C ≤ R * C := by
    have h2 : i + 1 ≤ R := hi
    calc i * C + C = (i + 1) * C := by ring
      _ ≤ R * C := Nat.mul_le_mul_right C h2
  omega

theorem LinMatrix.set_rows (m : LinMatrix) (r c : ℕ) (v : LinNum) :
    (m.set r c v).rows = m.rows := rfl

theorem LinMatrix.set_cols (m : LinMatrix) (r c : ℕ) (v : LinNum) :
    (m.set r c v).cols = m.cols := rfl

theorem LinMatrix.set_length (m : LinMatrix) (r c : ℕ) (v : LinNum) :
    (m.set r c v).data.length = m.data.length := List.length_set ..

theorem LinMatrix.new_rows (R C : ℕ) : (LinMatrix.new R C).rows = R := rfl

theorem LinMatrix.new_cols (R C : ℕ) : (LinMatrix.new R C).cols = C := rfl

theorem LinMatrix.new_length (R C : ℕ) :
    (LinMatrix.new R C).data.length = R * C := List.length_replicate ..

theorem fillInner_rows (f : ℕ → ℕ → LinNum) (i : ℕ) (res : LinMatrix) (J : ℕ) :
    (fillInner f i res J).rows = res.rows := by
  induction J with
  | zero => rfl
  | succ j ih => simp [fillInner, LinMatrix.set_rows, ih]

theorem fillInner_cols (f : ℕ → ℕ → LinNum) (i : ℕ) (res : LinMatrix) (J : ℕ) :
    (fillInner f i res J).cols = res.cols := by
  induction J with
  | zero => rfl
  | succ j ih => simp [fillInner, LinMatrix.set_cols, ih]

theorem fillInner_length (f : ℕ → ℕ → LinNum) (i : ℕ) (res : LinMatrix) (J : ℕ) :
    (fillInner f i res J).data.length = res.data.length := by
  induction J with
  | zero => rfl
  | succ j ih => simp [fillInner, LinMatrix.set, List.length_set, ih]

theorem fillInner_get_untouched (f : ℕ → ℕ → LinNum) (i : ℕ) (res : LinMatrix)
    (J k : ℕ) (hk : ∀ j, j < J → k ≠ i * res.cols + j) :
    (fillInner f i res J).data[k]? = res.data[k]? := by
  induction J with
  | zero => rfl
  | succ j ih =>
    have hcols : (fillInner f i res j).cols = res.cols := fillInner_cols ..
    have hne : k ≠ i * (fillInner f i res j).cols + j := by
      rw [hcols]; exact hk j (Nat.lt_succ_self j)
    calc (fillInner f i res (j + 1)).data[k]?
        = (fillInner f i res j).data[k]? := by
          simp only [fillInner, LinMatrix.set]
          exact List.getElem?_set_ne (fun h => hne h.symm)
      _ = res.data[k]? := ih (fun j2 hj2 => hk j2 (Nat.lt_succ_of_lt hj2))

theorem fillInner_get_written (f : ℕ → ℕ → LinNum) (i : ℕ) (res : LinMatrix)
    (J j : ℕ) (hjJ : j < J) (hrange : i * res.cols + j < res.data.length) :
    (fillInner f i res J).data[i * res.cols + j]? = some (f i j) := by
  induction J with
  | zero => exact absurd hjJ (Nat.not_lt_zero j)
  | succ J2 ih =>
    have hcols : (fillInner f i res J2).cols = res.cols := fillInner_cols ..
    have hlen : (fillInner f i res J2).data.length = res.data.length :=
      fillInner_length ..
    by_cases hj : j = J2
    · subst hj
      simp only [fillInner, LinMatrix.set, hcols]
      exact List.getElem?_set_eq_of_lt (f i j) (by rw [hlen]; exact hrange)
    · have hjJ2 : j < J2 := by omega
      simp only [fillInner, LinMatrix.set, hcols]
      rw [List.getElem?_set_ne (by omega)]
      exact ih hjJ2

theorem fillOuter_rows (f : ℕ → ℕ → LinNum) (C : ℕ) (res : LinMatrix) (I : ℕ) :
    (fillOuter f C res I).rows = res.rows := by
  induction I with
  | zero => rfl
  | succ i ih => simp [fillOuter, fillInner_rows, ih]

theorem fillOuter_cols (f : ℕ → ℕ → LinNum) (C : ℕ) (res : LinMatrix) (I : ℕ) :
    (fillOuter f C res I).cols = res.cols := by
  induction I with
  | zero => rfl
  | succ i ih => simp [fillOuter, fillInner_cols, ih]

theorem fillOuter_length (f : ℕ → ℕ → LinNum) (C : ℕ) (res : LinMatrix) (I : ℕ) :
    (fillOuter f C res I).data.length = res.data.length := by
  induction I with
  | zero => rfl
  | succ i ih => simp [fillOuter, fillInner_length, ih]

theorem fillOuter_get (f : ℕ → ℕ → LinNum) (C : ℕ) (res : LinMatrix) (I : ℕ)
    (hC : res.cols = C) (i j : ℕ) (hi : i < I) (hj : j < C)
    (hrange : i * C + j < res.data.length) :
    (fillOuter f C res I).data[i * C + j]? = some (f i j) := by
  revert hi
  induction I with
  | zero => intro hi; exact absurd hi (Nat.not_lt_zero i)
  | succ I2 ih =>
    intro hi
    have hcols : (fillOuter f C res I2).cols = C := by rw [fillOuter_cols, hC]
    have hlen : (fillOuter f C res I2).data.length = res.data.length :=
      fillOuter_length ..
    by_cases hiI : i = I2
    · subst hiI
      show (fillInner f i (fillOuter f C res i) C).data[i * C + j]? = some (f i j)
      have := fillInner_get_written f i (fillOuter f C res i) C j hj
        (by rw [hcols, hlen]; exact hrange)
      rw [hcols] at this
      exact this
    · have hiI2 : i < I2 := by omega
      show (fillInner f I2 (fillOuter f C res I2) C).data[i * C + j]? = some (f i j)
      rw [fillInner_get_untouched f I2 (fillOuter f C res I2) C (i * C + j)
        (by
          intro j2 hj2 heq
          rw [hcols] at heq
          have := flatIndex_inj hj hj2 heq
          omega)]
      exact ih hiI2

theorem fillMatrix_rows (R C : ℕ) (f : ℕ → ℕ → LinNum) :
    (fillMatrix R C f).rows = R := by
  simp [fillMatrix, fillOuter_rows, LinMatrix.new_rows]

theorem fillMatrix_cols (R C : ℕ) (f : ℕ → ℕ → LinNum) :
    (fillMatrix R C f).cols = C := by
  simp [fillMatrix, fillOuter_cols, LinMatrix.new_cols]

theorem fillMatrix_length (R C : ℕ) (f : ℕ → ℕ → LinNum) :
    (fillMatrix R C f).data.length = R * C := by
  simp [fillMatrix, fillOuter_length, LinMatrix.new_length]

theorem fillMatrix_getq (R C : ℕ) (f : ℕ → ℕ → LinNum) (i j : ℕ)
    (hi : i < R) (hj : j < C) :
    (fillMatrix R C f).data[i * C + j]? = some (f i j) := by
  exact fillOuter_get f C (LinMatrix.new R C) R (LinMatrix.new_cols ..) i j hi hj
    (by rw [LinMatrix.new_length]; exact flatIndex_lt hi hj)

theorem fillMatrix_get (R C : ℕ) (f : ℕ → ℕ → LinNum) (i j : ℕ)
    (hi : i < R) (hj : j < C) :
    (fillMatrix R C f).get i j = f i j := by
  unfold LinMatrix.get
  rw [fillMatrix_cols, fillMatrix_getq R C f i j hi hj]
  rfl

theorem fillInner_all (p : LinNum → Prop) (f : ℕ → ℕ → LinNum) (i : ℕ)
    (res : LinMatrix) (J : ℕ) (hres : ∀ x ∈ res.data, p x)
    (hf : ∀ a b, p (f a b)) : ∀ x ∈ (fillInner f i res J).data, p x := by
  induction J with
  | zero => exact hres
  | succ j ih =>
    intro x hx
    simp only [fillInner, LinMatrix.set] at hx
    rcases List.mem_or_eq_of_mem_set hx with hmem | hval
    · exact ih x hmem
    · rw [hval]; exact hf i j

theorem fillOuter_all (p : LinNum → Prop) (f : ℕ → ℕ → LinNum) (C : ℕ)
    (res : LinMatrix) (I : ℕ) (hres : ∀ x ∈ res.data, p x)
    (hf : ∀ a b, p (f a b)) : ∀ x ∈ (fillOuter f C res I).data, p x := by
  induction I with
  | zero => exact hres
  | succ i ih =>
    exact fillInner_all p f i (fillOuter f C res i) C ih hf

theorem fillMatrix_all (p : LinNum → Prop) (R C : ℕ) (f : ℕ → ℕ → LinNum)
    (hp : p (.Real f0)) (hf : ∀ a b, p (f a b)) :
    ∀ x ∈ (fillMatrix R C f).data, p x := by
  refine fillOuter_all p f C (LinMatrix.new R C) R ?_ hf
  intro x hx
  rw [List.eq_of_mem_replicate hx]
  exact hp

theorem LinMatrix.getq_lt (m : LinMatrix) (r c : ℕ)
    (h : r * m.cols + c < m.data.length) :
    m.data[r * m.cols + c]? = some (m.get r c) := by
  unfold LinMatrix.get
  rw [List.getElem?_eq_getElem h]
  rfl

theorem transInner_rows (m : LinMatrix) (i : ℕ) (res : LinMatrix) (J : ℕ) :
    (transInner m i res J).rows = res.rows := by
  induction J with
  | zero => rfl
  | succ j ih => simp [transInner, LinMatrix.set_rows, ih]

theorem transInner_cols (m : LinMatrix) (i : ℕ) (res : LinMatrix) (J : ℕ) :
    (transInner m i res J).cols = res.cols := by
  induction J with
  | zero => rfl
  | succ j ih => simp [transInner, LinMatrix.set_cols, ih]

theorem transInner_length (m : LinMatrix) (i : ℕ) (res : LinMatrix) (J : ℕ) :
    (transInner m i res J).data.length = res.data.length := by
  induction J with
  | zero => rfl
  | succ j ih => simp [transInner, LinMatrix.set, List.length_set, ih]

theorem transInner_get_untouched (m : LinMatrix) (i : ℕ) (res : LinMatrix)
    (J k : ℕ) (hk : ∀ j, j < J → k ≠ j * res.cols + i) :
    (transInner m i res J).data[k]? = res.data[k]? := by
  induction J with
  | zero => rfl
  | succ j ih =>
    have hcols : (transInner m i res j).cols = res.cols := transInner_cols ..
    have hne : k ≠ j * (transInner m i res j).cols + i := by
      rw [hcols]; exact hk j (Nat.lt_succ_self j)
    calc (transInner m i res (j + 1)).data[k]?
        = (transInner m i res j).data[k]? := by
          simp only [transInner, LinMatrix.set]
          exact List.getElem?_set_ne (fun h => hne h.symm)
      _ = res.data[k]? := ih (fun j2 hj2 => hk j2 (Nat.lt_succ_of_lt hj2))

theorem transInner_get_written (m : LinMatrix) (i : ℕ) (res : LinMatrix)
    (hC : 0 < res.cols) (J j : ℕ) (hjJ : j < J)
    (hrange : j * res.cols + i < res.data.length) :
    (transInner m i res J).data[j * res.cols + i]? = some (m.get i j) := by
  induction J with
  | zero => exact absurd hjJ (Nat.not_lt_zero j)
  | succ J2 ih =>
    have hcols : (transInner m i res J2).cols = res.cols := transInner_cols ..
    have hlen : (transInner m i res J2).data.length = res.data.length :=
      transInner_length ..
    by_cases hj : j = J2
    · subst hj
      simp only [transInner, LinMatrix.set, hcols]
      exact List.getElem?_set_eq_of_lt (m.get i j) (by rw [hlen]; exact hrange)
    · have hjJ2 : j < J2 := by omega
      simp only [transInner, LinMatrix.set, hcols]
      rw [List.getElem?_set_ne (by
        intro h
        have h2 : J2 * res.cols = j * res.cols := by omega
        have h3 : J2 = j := Nat.eq_of_mul_eq_mul_right hC h2
        omega)]
      exact ih hjJ2

theorem transOuter_rows (m : LinMatrix) (res : LinMatrix) (I : ℕ) :
    (transOuter m res I).rows = res.rows := by
  induction I with
  | zero => rfl
  | succ i ih => simp [transOuter, transInner_rows, ih]

theorem transOuter_cols (m : LinMatrix) (res : LinMatrix) (I : ℕ) :
    (transOuter m res I).cols = res.cols := by
  induction I with
  | zero => rfl
  | succ i ih => simp [transOuter, transInner_cols, ih]

theorem transOuter_length (m : LinMatrix) (res : LinMatrix) (I : ℕ) :
    (transOuter m res I).data.length = res.data.length := by
  induction I with
  | zero => rfl
  | succ i ih => simp [transOuter, transInner_length, ih]

theorem transOuter_get (m : LinMatrix) (res : LinMatrix) (I : ℕ)
    (hC : res.cols = m.rows) (i j : ℕ) (hI : I ≤ m.rows) (hj : j < m.cols)
    (hrange : j * m.rows + i < res.data.length) (hi : i < I) :
    (transOuter m res I).data[j * m.rows + i]? = some (m.get i j) := by
  revert hI hi
  induction I with
  | zero => intro hI hi; exact absurd hi (Nat.not_lt_zero i)
  | succ I2 ih =>
    intro hI hi
    have hcols : (transOuter m res I2).cols = m.rows := by rw [transOuter_cols, hC]
    have hlen : (transOuter m res I2).data.length = res.data.length :=
      transOuter_length ..
    by_cases hiI : i = I2
    · subst hiI
      show (transInner m i (transOuter m res i) m.cols).data[j * m.rows + i]?
        = some (m.get i j)
      have hpos : 0 < (transOuter m res i).cols := by rw [hcols]; omega
      have := transInner_get_written m i (transOuter m res i) hpos m.cols j hj
        (by rw [hcols, hlen]; exact hrange)
      rw [hcols] at this
      exact this
    · have hiI2 : i < I2 := by omega
      show (transInner m I2 (transOuter m res I2) m.cols).data[j * m.rows + i]?
        = some (m.get i j)
      rw [transInner_get_untouched m I2 (transOuter m res I2) m.cols (j * m.rows + i)
        (by
          intro j2 hj2 heq
          rw [hcols] at heq
          have hiR : i < m.rows := by omega
          have hI2R : I2 < m.rows := by omega
          have := flatIndex_inj hiR hI2R heq
          omega)]
      exact ih (by omega) hiI2

theorem transpose_rows (m : LinMatrix) : m.transpose.rows = m.cols := by
  simp [LinMatrix.transpose, transOuter_rows, LinMatrix.new_rows]

theorem transpose_cols (m : LinMatrix) : m.transpose.cols = m.rows := by
  simp [LinMatrix.transpose, transOuter_cols, LinMatrix.new_cols]

theorem transpose_length (m : LinMatrix) :
    m.transpose.data.length = m.cols * m.rows := by
  simp [LinMatrix.transpose, transOuter_length, LinMatrix.new_length]

theorem transpose_getq (m : LinMatrix) (i j : ℕ) (hi : i < m.rows)
    (hj : j < m.cols) : m.transpose.data[j * m.rows + i]? = some (m.get i j) := by
  exact transOuter_get m (LinMatrix.new m.cols m.rows) m.rows
    (LinMatrix.new_cols ..) i j (Nat.le_refl _) hj
    (by rw [LinMatrix.new_length]; exact flatIndex_lt hj hi) hi

theorem transpose_get (m : LinMatrix) (i j : ℕ) (hi : i < m.rows)
    (hj : j < m.cols) : m.transpose.get j i = m.get i j := by
  unfold LinMatrix.get
  rw [transpose_cols, transpose_getq m i j hi hj]
  rfl

theorem transpose_involution (m : LinMatrix)
    (hlen : m.data.length = m.rows * m.cols) : m.transpose.transpose = m := by
  have h1 : m.transpose.transpose.rows = m.rows := by
    rw [transpose_rows, transpose_cols]
  have h2 : m.transpose.transpose.cols = m.cols := by
    rw [transpose_cols, transpose_rows]
  have hlen2 : m.transpose.transpose.data.length = m.data.length := by
    rw [transpose_length, transpose_rows, transpose_cols, hlen]
  have h3 : m.transpose.transpose.data = m.data := by
    apply List.ext_getElem?
    intro n
    by_cases hn : n < m.rows * m.cols
    · have hc : 0 < m.cols := by
        rcases Nat.eq_zero_or_pos m.cols with h | h
        · rw [h, Nat.mul_zero] at hn; exact absurd hn (Nat.not_lt_zero n)
        · exact h
      have hi : n / m.cols < m.rows := Nat.div_lt_of_lt_mul (by
        rw [Nat.mul_comm] at hn; exact hn)
      have hj : n % m.cols < m.cols := Nat.mod_lt n hc
      have hn2 : n = n / m.cols * m.cols + n % m.cols := by
        have h := Nat.div_add_mod n m.cols
        rw [Nat.mul_comm] at h
        omega
      have hTget := transpose_getq m.transpose (n % m.cols) (n / m.cols)
        (by rw [transpose_rows]; exact hj) (by rw [transpose_cols]; exact hi)
      rw [transpose_rows] at hTget
      rw [transpose_get m (n / m.cols) (n % m.cols) hi hj] at hTget
      rw [hn2]
      rw [hTget]
      exact (LinMatrix.getq_lt m (n / m.cols) (n % m.cols)
        (by rw [hlen]; rw [hn2] at hn; exact hn)).symm
    · rw [List.getElem?_eq_none (by omega : m.data.length ≤ n),
        List.getElem?_eq_none (by rw [hlen2, hlen]; omega)]
  calc m.transpose.transpose
      = ⟨m.transpose.transpose.rows, m.transpose.transpose.cols,
          m.transpose.transpose.data⟩ := rfl
    _ = ⟨m.rows, m.cols, m.data⟩ := by rw [h1, h2, h3]
    _ = m := rfl

theorem subInner_rows (m : LinMatrix) (i j : ℕ) (res : LinMatrix) (K : ℕ) :
    (subInner m i j res K).rows = res.rows := by
  induction K with
  | zero => rfl
  | succ k ih =>
    simp only [subInner]
    by_cases h1 : k < i
    · simp [h1, LinMatrix.set_rows, ih]
    · by_cases h2 : i < k
      · simp [h1, h2, LinMatrix.set_rows, ih]
      · simp [h1, h2, ih]

theorem subInner_cols (m : LinMatrix) (i j : ℕ) (res : LinMatrix) (K : ℕ) :
    (subInner m i j res K).cols = res.cols := by
  induction K with
  | zero => rfl
  | succ k ih =>
    simp only [subInner]
    by_cases h1 : k < i
    · simp [h1, LinMatrix.set_cols, ih]
    · by_cases h2 : i < k
      · simp [h1, h2, LinMatrix.set_cols, ih]
      · simp [h1, h2, ih]

theorem subInner_length (m : LinMatrix) (i j : ℕ) (res : LinMatrix) (K : ℕ) :
    (subInner m i j res K).data.length = res.data.length := by
  induction K with
  | zero => rfl
  | succ k ih =>
    simp only [subInner]
    by_cases h1 : k < i
    · simp [h1, LinMatrix.set, List.length_set, ih]
    · by_cases h2 : i < k
      · simp [h1, h2, LinMatrix.set, List.length_set, ih]
      · simp [h1, h2, ih]

theorem subInner_get_untouched (m : LinMatrix) (i j : ℕ) (res : LinMatrix)
    (K q : ℕ) (hi : i ≤ res.cols) (hK : K ≤ res.cols + 1)
    (hq : ∀ c2, c2 < res.cols → q ≠ (j - 1) * res.cols + c2) :
    (subInner m i j res K).data[q]? = res.data[q]? := by
  induction K with
  | zero => rfl
  | succ k ih =>
    have hcols : (subInner m i j res k).cols = res.cols := subInner_cols ..
    have ihk := ih (by omega)
    simp only [subInner]
    by_cases h1 : k < i
    · simp only [h1, if_pos]
      rw [show (subInner m i j res k).set (j - 1) k (m.get j k)
          = ⟨(subInner m i j res k).rows, (subInner m i j res k).cols,
             (subInner m i j res k).data.set ((j - 1) * (subInner m i j res k).cols + k) (m.get j k)⟩ from rfl]
      show ((subInner m i j res k).data.set ((j - 1) * (subInner m i j res k).cols + k) (m.get j k))[q]? = _
      rw [List.getElem?_set_ne (by
        rw [hcols]
        intro h
        exact hq k (by omega) h.symm)]
      exact ihk
    · by_cases h2 : i < k
      · simp only [h1, h2, if_neg, if_pos, Nat.not_lt]
        show ((subInner m i j res k).set (j - 1) (k - 1) (m.get j k)).data[q]? = _
        show ((subInner m i j res k).data.set ((j - 1) * (subInner m i j res k).cols + (k - 1)) (m.get j k))[q]? = _
        rw [List.getElem?_set_ne (by
          rw [hcols]
          intro h
          exact hq (k - 1) (by omega) h.symm)]
        exact ihk
      · simp only [h1, h2, if_neg]
        exact ihk

theorem subInner_get_written (m : LinMatrix) (i j : ℕ) (res : LinMatrix)
    (K c2 : ℕ) (hc2 : c2 < res.cols)
    (hrange : (j - 1) * res.cols + c2 < res.data.length)
    (hwr : (c2 < i ∧ c2 < K) ∨ (i ≤ c2 ∧ c2 + 1 < K)) :
    (subInner m i j res K).data[(j - 1) * res.cols + c2]? =
      some (m.get j (if c2 < i then c2 else c2 + 1)) := by
  induction K with
  | zero => omega
  | succ k ih =>
    have hcols : (subInner m i j res k).cols = res.cols := subInner_cols ..
    have hlen : (subInner m i j res k).data.length = res.data.length :=
      subInner_length ..
    simp only [subInner]
    by_cases h1 : k < i
    · simp only [h1, if_pos]
      show ((subInner m i j res k).data.set
        ((j - 1) * (subInner m i j res k).cols + k) (m.get j k))[(j - 1) * res.cols + c2]? = _
      rw [hcols]
      by_cases hck : c2 = k
      · subst hck
        rw [List.getElem?_set_eq_of_lt (m.get j c2) (by rw [hlen]; exact hrange)]
        rw [if_pos (by omega : c2 < i)]
      · rw [List.getElem?_set_ne (by omega)]
        exact ih (by omega)
    · by_cases h2 : i < k
      · simp only [h1, h2, if_neg, if_pos, Nat.not_lt]
        show ((subInner m i j res k).data.set
          ((j - 1) * (subInner m i j res k).cols + (k - 1)) (m.get j k))[(j - 1) * res.cols + c2]? = _
        rw [hcols]
        by_cases hck : c2 = k - 1
        · subst hck
          rw [List.getElem?_set_eq_of_lt (m.get j k) (by rw [hlen]; exact hrange)]
          rw [if_neg (by omega : ¬ k - 1 < i)]
          rw [show k - 1 + 1 = k by omega]
        · rw [List.getElem?_set_ne (by omega)]
          exact ih (by omega)
      · simp only [h1, h2, if_neg]
        exact ih (by omega)

theorem subOuter_rows (m : LinMatrix) (i : ℕ) (res : LinMatrix) (T : ℕ) :
    (subOuter m i res T).rows = res.rows := by
  induction T with
  | zero => rfl
  | succ t ih => simp [subOuter, subInner_rows, ih]

theorem subOuter_cols (m : LinMatrix) (i : ℕ) (res : LinMatrix) (T : ℕ) :
    (subOuter m i res T).cols = res.cols := by
  induction T with
  | zero => rfl
  | succ t ih => simp [subOuter, subInner_cols, ih]

theorem subOuter_length (m : LinMatrix) (i : ℕ) (res : LinMatrix) (T : ℕ) :
    (subOuter m i res T).data.length = res.data.length := by
  induction T with
  | zero => rfl
  | succ t ih => simp [subOuter, subInner_length, ih]

theorem subOuter_get (m : LinMatrix) (i : ℕ) (res : LinMatrix) (T : ℕ)
    (hC : res.cols = m.cols - 1) (hi : i < m.cols) (t c2 : ℕ)
    (hc2 : c2 < m.cols - 1)
    (hrange : t * (m.cols - 1) + c2 < res.data.length) (ht : t < T) :
    (subOuter m i res T).data[t * (m.cols - 1) + c2]? =
      some (m.get (t + 1) (if c2 < i then c2 else c2 + 1)) := by
  revert ht
  induction T with
  | zero => intro ht; exact absurd ht (Nat.not_lt_zero t)
  | succ T2 ih =>
    intro ht
    have hcols : (subOuter m i res T2).cols = m.cols - 1 := by
      rw [subOuter_cols, hC]
    have hlen : (subOuter m i res T2).data.length = res.data.length :=
      subOuter_length ..
    by_cases htT : t = T2
    · subst htT
      show (subInner m i (t + 1) (subOuter m i res t) m.cols).data[t * (m.cols - 1) + c2]?
        = some (m.get (t + 1) (if c2 < i then c2 else c2 + 1))
      have := subInner_get_written m i (t + 1) (subOuter m i res t) m.cols c2
        (by rw [hcols]; exact hc2)
        (by rw [hcols, hlen]; simpa using hrange)
        (by omega)
      rw [hcols] at this
      simpa using this
    · have htT2 : t < T2 := by omega
      show (subInner m i (T2 + 1) (subOuter m i res T2) m.cols).data[t * (m.cols - 1) + c2]?
        = some (m.get (t + 1) (if c2 < i then c2 else c2 + 1))
      rw [subInner_get_untouched m i (T2 + 1) (subOuter m i res T2) m.cols
        (t * (m.cols - 1) + c2)
        (by rw [hcols]; omega)
        (by rw [hcols]; omega)
        (by
          intro col hcol heq
          rw [hcols] at heq hcol
          simp only [Nat.add_sub_cancel] at heq
          have := flatIndex_inj hc2 hcol heq
          omega)]
      exact ih htT2

theorem subMatrixAt_rows (m : LinMatrix) (i : ℕ) :
    (subMatrixAt m i).rows = m.rows - 1 := by
  simp [subMatrixAt, subOuter_rows, LinMatrix.new_rows]

theorem subMatrixAt_cols (m : LinMatrix) (i : ℕ) :
    (subMatrixAt m i).cols = m.cols - 1 := by
  simp [subMatrixAt, subOuter_cols, LinMatrix.new_cols]

theorem subMatrixAt_length (m : LinMatrix) (i : ℕ) :
    (subMatrixAt m i).data.length = (m.rows - 1) * (m.cols - 1) := by
  simp [subMatrixAt, subOuter_length, LinMatrix.new_length]

theorem subMatrixAt_get (m : LinMatrix) (i : ℕ) (hi : i < m.cols) (t c2 : ℕ)
    (ht : t < m.rows - 1) (hc2 : c2 < m.cols - 1) :
    (subMatrixAt m i).get t c2 = m.get (t + 1) (if c2 < i then c2 else c2 + 1) := by
  unfold LinMatrix.get
  rw [subMatrixAt_cols]
  rw [show (subMatrixAt m i).data[t * (m.cols - 1) + c2]?
      = some (m.get (t + 1) (if c2 < i then c2 else c2 + 1)) from
    subOuter_get m i (LinMatrix.new (m.rows - 1) (m.cols - 1)) (m.rows - 1)
      (LinMatrix.new_cols ..) hi t c2 hc2
      (by rw [LinMatrix.new_length]; exact flatIndex_lt ht hc2) ht]
  rfl

theorem determinant_err (m : LinMatrix) (h : m.rows ≠ m.cols) :
    m.determinant = .error .DimensionMismatch := by
  unfold LinMatrix.determinant detAux
  simp [h]

theorem determinant_one (m : LinMatrix) (h1 : m.rows = 1) (hsq : m.rows = m.cols) :
    m.determinant = .ok (m.get 0 0) := by
  unfold LinMatrix.determinant detAux
  simp [h1, hsq.symm]

theorem determinant_two (m : LinMatrix) (h2 : m.rows = 2) (hsq : m.rows = m.cols) :
    m.determinant = .ok (m.get 0 0 * m.get 1 1 - m.get 0 1 * m.get 1 0) := by
  unfold LinMatrix.determinant detAux
  simp [h2, hsq.symm]

theorem determinant_loop (m : LinMatrix) (hsq : m.rows = m.cols)
    (h1 : m.rows ≠ 1) (h2 : m.rows ≠ 2) :
    m.determinant = detSumLoop (detAux m.rows) m m.cols := by
  have h1c : m.cols ≠ 1 := by omega
  have h2c : m.cols ≠ 2 := by omega
  unfold LinMatrix.determinant detAux
  simp [hsq, h1, h2, h1c, h2c]

theorem detSumLoop_ok (recur : LinMatrix → Except MatrixError LinNum)
    (m : LinMatrix) (n : ℕ)
    (h : ∀ i, i < n → ∃ v, recur (subMatrixAt m i) = .ok v) :
    ∃ w, detSumLoop recur m n = .ok w := by
  induction n with
  | zero => exact ⟨.Real f0, rfl⟩
  | succ n2 ih =>
    obtain ⟨w, hw⟩ := ih (fun i hi => h i (Nat.lt_succ_of_lt hi))
    obtain ⟨v, hv⟩ := h n2 (Nat.lt_succ_self n2)
    refine ⟨w + m.get 0 n2 * v * detTermSign n2, ?_⟩
    simp [detSumLoop, hw, hv, Except.bind, Except.map]

theorem detAux_ok (fuel : ℕ) (m : LinMatrix) (hsq : m.rows = m.cols)
    (hfuel : m.rows < fuel) : ∃ v, detAux fuel m = .ok v := by
  revert m
  induction fuel with
  | zero => intro m hsq hfuel; omega
  | succ f ih =>
    intro m hsq hfuel
    unfold detAux
    rw [if_neg (by omega : ¬ m.rows ≠ m.cols)]
    by_cases h1 : m.rows = 1
    · exact ⟨m.get 0 0, by simp [h1]⟩
    · by_cases h2 : m.rows = 2
      · exact ⟨m.get 0 0 * m.get 1 1 - m.get 0 1 * m.get 1 0, by simp [h1, h2]⟩
      · simp only [h1, h2, if_false]
        apply detSumLoop_ok
        intro i hi
        apply ih
        · rw [subMatrixAt_rows, subMatrixAt_cols, hsq]
        · rw [subMatrixAt_rows]
          have : 0 < m.cols := by omega
          omega

theorem determinant_ok (m : LinMatrix) (hsq : m.rows = m.cols) :
    ∃ v, m.determinant = .ok v :=
  detAux_ok (m.rows + 1) m hsq (Nat.lt_succ_self _)

theorem determinant_error_iff (m : LinMatrix) :
    m.determinant = .error .DimensionMismatch ↔ m.rows ≠ m.cols := by
  constructor
  · intro h hsq
    obtain ⟨v, hv⟩ := determinant_ok m hsq
    rw [h] at hv
    exact Except.noConfusion hv
  · exact determinant_err m

theorem detAux_sub (m : LinMatrix) (i : ℕ) (h : 1 ≤ m.rows) :
    detAux m.rows (subMatrixAt m i) = (subMatrixAt m i).determinant := by
  unfold LinMatrix.determinant
  rw [subMatrixAt_rows]
  have : m.rows - 1 + 1 = m.rows := by omega
  rw [this]

theorem detSumLoop_congr (recur1 recur2 : LinMatrix → Except MatrixError LinNum)
    (m : LinMatrix) (n : ℕ)
    (h : ∀ i, i < n → recur1 (subMatrixAt m i) = recur2 (subMatrixAt m i)) :
    detSumLoop recur1 m n = detSumLoop recur2 m n := by
  induction n with
  | zero => rfl
  | succ n2 ih =>
    simp only [detSumLoop]
    rw [ih (fun i hi => h i (Nat.lt_succ_of_lt hi)), h n2 (Nat.lt_succ_self n2)]

theorem detSumLoop_claimSum (m : LinMatrix) (n : ℕ)
    (h : ∀ i, i < n → ∃ v, (subMatrixAt m i).determinant = .ok v) :
    detSumLoop LinMatrix.determinant m n = .ok (detClaimSum m n) := by
  induction n with
  | zero => rfl
  | succ n2 ih =>
    obtain ⟨v, hv⟩ := h n2 (Nat.lt_succ_self n2)
    have hmv : minorDet m n2 = v := by
      unfold minorDet detVal
      rw [hv]
    simp only [detSumLoop, detClaimSum]
    rw [ih (fun i hi => h i (Nat.lt_succ_of_lt hi)), hv, hmv]
    rfl

theorem determinant_sub_ok (m : LinMatrix) (hsq : m.rows = m.cols) (i : ℕ) :
    (subMatrixAt m i).determinant = .ok (minorDet m i) := by
  obtain ⟨v, hv⟩ := determinant_ok (subMatrixAt m i)
    (by rw [subMatrixAt_rows, subMatrixAt_cols, hsq])
  rw [hv]
  unfold minorDet detVal
  rw [hv]

theorem determinant_three (m : LinMatrix) (hsq : m.rows = m.cols)
    (h3 : 3 ≤ m.rows) : m.determinant = .ok (detClaimSum m m.cols) := by
  rw [determinant_loop m hsq (by omega) (by omega)]
  rw [detSumLoop_congr (detAux m.rows) LinMatrix.determinant m m.cols
    (fun i _ => detAux_sub m i (by omega))]
  exact detSumLoop_claimSum m m.cols
    (fun i _ => ⟨minorDet m i, determinant_sub_ok m hsq i⟩)

theorem new_rational_eq_ediv (n d : ℤ) :
    LinNum.new_rational n d
      = .Rational (n / (Int.gcd n d : ℤ)) (d / (Int.gcd n d : ℤ)) := by
  unfold LinNum.new_rational
  rw [Int.tdiv_eq_ediv_of_dvd Int.gcd_dvd_left,
    Int.tdiv_eq_ediv_of_dvd Int.gcd_dvd_right]

theorem rationalAborts_iff (n d : ℤ) :
    rationalAborts n d = true ↔ (n = 0 ∧ d = 0) := by
  unfold rationalAborts
  rw [beq_iff_eq]
  exact Int.gcd_eq_zero_iff

theorem rationalAborts_false (n d : ℤ) (h : ¬(n = 0 ∧ d = 0)) :
    rationalAborts n d = false := by
  rcases hb : rationalAborts n d with _ | _
  · rfl
  · exact absurd ((rationalAborts_iff n d).mp hb) h

theorem new_rational_gcd_one (n d : ℤ) (h : ¬(n = 0 ∧ d = 0)) :
    Int.gcd (LinNum.new_rational n d).ratNum (LinNum.new_rational n d).ratDen = 1 := by
  rw [new_rational_eq_ediv]
  show Int.gcd (n / (Int.gcd n d : ℤ)) (d / (Int.gcd n d : ℤ)) = 1
  apply Int.gcd_div_gcd_div_gcd
  rcases Nat.eq_zero_or_pos (Int.gcd n d) with h0 | h0
  · exact absurd (Int.gcd_eq_zero_iff.mp h0) h
  · exact h0

theorem new_rational_scale (n d k : ℤ) (hk : 0 < k) :
    LinNum.new_rational (k * n) (k * d) = LinNum.new_rational n d := by
  rw [new_rational_eq_ediv, new_rational_eq_ediv]
  have hg : (Int.gcd (k * n) (k * d) : ℤ) = k * (Int.gcd n d : ℤ) := by
    rw [Int.gcd_mul_left]
    push_cast
    rw [abs_of_pos hk]
  rw [hg, Int.mul_ediv_mul_of_pos n (Int.gcd n d : ℤ) hk,
    Int.mul_ediv_mul_of_pos d (Int.gcd n d : ℤ) hk]

theorem new_rational_den_form (n d : ℤ) (hd : d ≠ 0) :
    ∃ n2 d2 : ℤ, LinNum.new_rational n d = .Rational n2 d2 ∧ d2 ≠ 0 ∧
      (n : ℚ) = (Int.gcd n d : ℚ) * (n2 : ℚ) ∧
      (d : ℚ) = (Int.gcd n d : ℚ) * (d2 : ℚ) := by
  refine ⟨n / (Int.gcd n d : ℤ), d / (Int.gcd n d : ℤ), new_rational_eq_ediv n d, ?_, ?_, ?_⟩
  · intro h0
    have hdvd : (Int.gcd n d : ℤ) ∣ d := Int.gcd_dvd_right
    have := Int.ediv_mul_cancel hdvd
    rw [h0, zero_mul] at this
    exact hd this.symm
  · have hdvd : (Int.gcd n d : ℤ) ∣ n := Int.gcd_dvd_left
    have h1 : (Int.gcd n d : ℤ) * (n / (Int.gcd n d : ℤ)) = n := Int.mul_ediv_cancel' hdvd
    exact_mod_cast congrArg (fun z : ℤ => (z : ℚ)) h1.symm
  · have hdvd : (Int.gcd n d : ℤ) ∣ d := Int.gcd_dvd_right
    have h1 : (Int.gcd n d : ℤ) * (d / (Int.gcd n d : ℤ)) = d := Int.mul_ediv_cancel' hdvd
    exact_mod_cast congrArg (fun z : ℤ => (z : ℚ)) h1.symm

theorem new_rational_good (n d : ℤ) (hd : d ≠ 0) :
    (LinNum.new_rational n d).isGoodRat = true ∧
      (LinNum.new_rational n d).ratVal = (n : ℚ) / (d : ℚ) := by
  obtain ⟨n2, d2, heq, hd2, hn, hdq⟩ := new_rational_den_form n d hd
  have hgq : (Int.gcd n d : ℚ) ≠ 0 := by
    intro h0
    apply hd
    have hdz : (d : ℚ) = 0 := by rw [hdq, h0, zero_mul]
    exact_mod_cast hdz
  constructor
  · rw [heq]
    simp [LinNum.isGoodRat, hd2]
  · rw [heq]
    show (n2 : ℚ) / (d2 : ℚ) = (n : ℚ) / (d : ℚ)
    rw [hn, hdq, mul_div_mul_left _ _ hgq]

theorem mul_good (a b : LinNum) (ha : a.isGoodRat = true) (hb : b.isGoodRat = true) :
    (a.mul b).isGoodRat = true ∧ (a.mul b).ratVal = a.ratVal * b.ratVal := by
  cases a with
  | Real v => exact absurd ha (by simp [LinNum.isGoodRat])
  | Rational n1 d1 =>
    cases b with
    | Real v => exact absurd hb (by simp [LinNum.isGoodRat])
    | Rational n2 d2 =>
      have hd1 : d1 ≠ 0 := by simpa [LinNum.isGoodRat] using ha
      have hd2 : d2 ≠ 0 := by simpa [LinNum.isGoodRat] using hb
      have hd12 : d1 * d2 ≠ 0 := mul_ne_zero hd1 hd2
      obtain ⟨hgood, hval⟩ := new_rational_good (n1 * n2) (d1 * d2) hd12
      refine ⟨hgood, ?_⟩
      show (LinNum.new_rational (n1 * n2) (d1 * d2)).ratVal = _
      rw [hval]
      show ((n1 * n2 : ℤ) : ℚ) / ((d1 * d2 : ℤ) : ℚ)
        = (n1 : ℚ) / (d1 : ℚ) * ((n2 : ℚ) / (d2 : ℚ))
      push_cast
      rw [div_mul_div_comm]

theorem sub_good (a b : LinNum) (ha : a.isGoodRat = true) (hb : b.isGoodRat = true) :
    (a.sub b).isGoodRat = true ∧ (a.sub b).ratVal = a.ratVal - b.ratVal := by
  cases a with
  | Real v => exact absurd ha (by simp [LinNum.isGoodRat])
  | Rational n1 d1 =>
    cases b with
    | Real v => exact absurd hb (by simp [LinNum.isGoodRat])
    | Rational n2 d2 =>
      have hd1 : d1 ≠ 0 := by simpa [LinNum.isGoodRat] using ha
      have hd2 : d2 ≠ 0 := by simpa [LinNum.isGoodRat] using hb
      have hd12 : d1 * d2 ≠ 0 := mul_ne_zero hd1 hd2
      obtain ⟨hgood, hval⟩ := new_rational_good (n1 * d2 - n2 * d1) (d1 * d2) hd12
      refine ⟨hgood, ?_⟩
      show (LinNum.new_rational (n1 * d2 - n2 * d1) (d1 * d2)).ratVal = _
      rw [hval]
      show ((n1 * d2 - n2 * d1 : ℤ) : ℚ) / ((d1 * d2 : ℤ) : ℚ)
        = (n1 : ℚ) / (d1 : ℚ) - (n2 : ℚ) / (d2 : ℚ)
      have hq1 : (d1 : ℚ) ≠ 0 := by exact_mod_cast hd1
      have hq2 : (d2 : ℚ) ≠ 0 := by exact_mod_cast hd2
      rw [div_sub_div _ _ hq1 hq2]
      push_cast
      ring_nf

theorem good_is_rational (a : LinNum) (ha : a.isGoodRat = true) :
    a.is_rational = true := by
  cases a with
  | Rational n d => rfl
  | Real v => exact absurd ha (by simp [LinNum.isGoodRat])

theorem add_real_left (a b : LinNum) (ha : a.is_real = true) :
    (a.add b).is_real = true := by
  cases a with
  | Rational n d => exact absurd ha (by simp [LinNum.is_real])
  | Real v => cases b <;> rfl

theorem dotLoop_real (a b : LinMatrix) (i j k : ℕ) :
    (dotLoop a b i j k).is_real = true := by
  induction k with
  | zero => rfl
  | succ k2 ih => exact add_real_left _ _ ih

theorem setq_some (m m2 : LinMatrix) (r c : ℕ) (v : LinNum)
    (h : m.setq r c v = some m2) :
    m2.rows = m.rows ∧ m2.cols = m.cols ∧ m2.data.length = m.data.length := by
  unfold LinMatrix.setq at h
  by_cases hr : r * m.cols + c < m.data.length
  · rw [if_pos hr] at h
    cases h
    exact ⟨rfl, rfl, List.length_set ..⟩
  · rw [if_neg hr] at h
    exact Option.noConfusion h

theorem fromRowLoop_some (i : ℕ) (l : List LinNum) :
    ∀ j : ℕ, ∀ m m2 : LinMatrix, fromRowLoop i l j m = some m2 →
      m2.rows = m.rows ∧ m2.cols = m.cols ∧ m2.data.length = m.data.length := by
  induction l with
  | nil =>
    intro j m m2 h
    cases h
    exact ⟨rfl, rfl, rfl⟩
  | cons v rest ih =>
    intro j m m2 h
    simp only [fromRowLoop, Option.bind] at h
    rcases hset : m.setq i j v with _ | m3
    · rw [hset] at h; exact Option.noConfusion h
    · rw [hset] at h
      obtain ⟨h1, h2, h3⟩ := ih (j + 1) m3 m2 h
      obtain ⟨g1, g2, g3⟩ := setq_some m m3 i j v hset
      exact ⟨h1.trans g1, h2.trans g2, h3.trans g3⟩

theorem fromLoop_some (l : List (List LinNum)) :
    ∀ i : ℕ, ∀ m m2 : LinMatrix, fromLoop l i m = some m2 →
      m2.rows = m.rows ∧ m2.cols = m.cols ∧ m2.data.length = m.data.length := by
  induction l with
  | nil =>
    intro i m m2 h
    cases h
    exact ⟨rfl, rfl, rfl⟩
  | cons r rest ih =>
    intro i m m2 h
    simp only [fromLoop, Option.bind] at h
    rcases hrow : fromRowLoop i r 0 m with _ | m3
    · rw [hrow] at h; exact Option.noConfusion h
    · rw [hrow] at h
      obtain ⟨h1, h2, h3⟩ := ih (i + 1) m3 m2 h
      obtain ⟨g1, g2, g3⟩ := fromRowLoop_some i r 0 m m3 hrow
      exact ⟨h1.trans g1, h2.trans g2, h3.trans g3⟩

theorem fromRows_invariant (l : List (List LinNum)) (m2 : LinMatrix)
    (h : LinMatrix.fromRows l = some m2) :
    m2.data.length = m2.rows * m2.cols := by
  cases l with
  | nil => exact Option.noConfusion h
  | cons r0 rest =>
    obtain ⟨h1, h2, h3⟩ := fromLoop_some (r0 :: rest) 0
      (LinMatrix.new (r0 :: rest).length r0.length) m2 h
    rw [h1, h2, h3, LinMatrix.new_rows, LinMatrix.new_cols, LinMatrix.new_length]

theorem addM_error_iff (a b : LinMatrix) :
    a.addM b = .error .DimensionMismatch ↔ ¬(a.rows = b.rows ∧ a.cols = b.cols) := by
  unfold LinMatrix.addM
  by_cases h : a.rows ≠ b.rows ∨ a.cols ≠ b.cols
  · rw [if_pos h]
    exact ⟨fun _ => by tauto, fun _ => rfl⟩
  · rw [if_neg h]
    push_neg at h
    exact ⟨fun hc => Except.noConfusion hc, fun hc => absurd h hc⟩

theorem addM_ok (a b c : LinMatrix) (h : a.addM b = .ok c) :
    a.rows = b.rows ∧ a.cols = b.cols ∧ c.rows = a.rows ∧ c.cols = a.cols ∧
      c.data.length = a.rows * a.cols ∧
      ∀ i j, i < a.rows → j < a.cols → c.get i j = (a.get i j).add (b.get i j) := by
  unfold LinMatrix.addM at h
  by_cases hcond : a.rows ≠ b.rows ∨ a.cols ≠ b.cols
  · rw [if_pos hcond] at h; exact Except.noConfusion h
  · rw [if_neg hcond] at h
    have heq : c = fillMatrix a.rows a.cols (fun i j => a.get i j + b.get i j) :=
      (Except.ok.injEq _ _ ▸ congrArg id h).symm ▸ (Except.ok.inj h).symm
    push_neg at hcond
    refine ⟨hcond.1, hcond.2, ?_, ?_, ?_, ?_⟩
    · rw [heq, fillMatrix_rows]
    · rw [heq, fillMatrix_cols]
    · rw [heq, fillMatrix_length]
    · intro i j hi hj
      rw [heq, fillMatrix_get a.rows a.cols _ i j hi hj]
      rfl

theorem subM_error_iff (a b : LinMatrix) :
    a.subM b = .error .DimensionMismatch ↔ ¬(a.rows = b.rows ∧ a.cols = b.cols) := by
  unfold LinMatrix.subM
  by_cases h : a.rows ≠ b.rows ∨ a.cols ≠ b.cols
  · rw [if_pos h]
    exact ⟨fun _ => by tauto, fun _ => rfl⟩
  · rw [if_neg h]
    push_neg at h
    exact ⟨fun hc => Except.noConfusion hc, fun hc => absurd h hc⟩

theorem subM_ok (a b c : LinMatrix) (h : a.subM b = .ok c) :
    a.rows = b.rows ∧ a.cols = b.cols ∧ c.rows = a.rows ∧ c.cols = a.cols ∧
      c.data.length = a.rows * a.cols ∧
      ∀ i j, i < a.rows → j < a.cols → c.get i j = (a.get i j).sub (b.get i j) := by
  unfold LinMatrix.subM at h
  by_cases hcond : a.rows ≠ b.rows ∨ a.cols ≠ b.cols
  · rw [if_pos hcond] at h; exact Except.noConfusion h
  · rw [if_neg hcond] at h
    have heq : c = fillMatrix a.rows a.cols (fun i j => a.get i j - b.get i j) :=
      (Except.ok.inj h).symm
    push_neg at hcond
    refine ⟨hcond.1, hcond.2, ?_, ?_, ?_, ?_⟩
    · rw [heq, fillMatrix_rows]
    · rw [heq, fillMatrix_cols]
    · rw [heq, fillMatrix_length]
    · intro i j hi hj
      rw [heq, fillMatrix_get a.rows a.cols _ i j hi hj]
      rfl

theorem mulM_error_iff (a b : LinMatrix) :
    a.mulM b = .error .DimensionMismatch ↔ a.cols ≠ b.rows := by
  unfold LinMatrix.mulM
  by_cases h : a.cols ≠ b.rows
  · rw [if_pos h]
    exact ⟨fun _ => h, fun _ => rfl⟩
  · rw [if_neg h]
    rw [not_not] at h
    exact ⟨fun hc => Except.noConfusion hc, fun hc => absurd h hc⟩

theorem mulM_ok (a b c : LinMatrix) (h : a.mulM b = .ok c) :
    a.cols = b.rows ∧ c.rows = a.rows ∧ c.cols = b.cols ∧
      c.data.length = a.rows * b.cols ∧
      ∀ i j, i < a.rows → j < b.cols → c.get i j = dotLoop a b i j a.cols := by
  unfold LinMatrix.mulM at h
  by_cases hcond : a.cols ≠ b.rows
  · rw [if_pos hcond] at h; exact Except.noConfusion h
  · rw [if_neg hcond] at h
    have heq : c = fillMatrix a.rows b.cols (fun i j => dotLoop a b i j a.cols) :=
      (Except.ok.inj h).symm
    push_neg at hcond
    refine ⟨hcond, ?_, ?_, ?_, ?_⟩
    · rw [heq, fillMatrix_rows]
    · rw [heq, fillMatrix_cols]
    · rw [heq, fillMatrix_length]
    · intro i j hi hj
      rw [heq, fillMatrix_get a.rows b.cols _ i j hi hj]

theorem mulM_all_real (a b c : LinMatrix) (h : a.mulM b = .ok c) :
    ∀ x ∈ c.data, x.is_real = true := by
  unfold LinMatrix.mulM at h
  by_cases hcond : a.cols ≠ b.rows
  · rw [if_pos hcond] at h; exact Except.noConfusion h
  · rw [if_neg hcond] at h
    have heq : c = fillMatrix a.rows b.cols (fun i j => dotLoop a b i j a.cols) :=
      (Except.ok.inj h).symm
    rw [heq]
    exact fillMatrix_all (fun x => x.is_real = true) a.rows b.cols _ rfl
      (fun i j => dotLoop_real a b i j a.cols)

theorem LinMatrix.get_mem (m : LinMatrix) (r c : ℕ)
    (h : r * m.cols + c < m.data.length) : m.get r c ∈ m.data :=
  List.getElem?_mem (LinMatrix.getq_lt m r c h)

/-- C1: for every pair of Scalars the four arithmetic operations follow the
promotion rule: Rational op Rational goes through the school-algebra
cross-multiplication formulas renormalized by the rational constructor and
stays Rational, and any operation with a Real operand yields Real, equal to
the float operation applied after converting the Rational operand; amended:
dividing a Rational with zero numerator by a Rational with zero numerator
makes the constructor divide by a zero gcd, so that division aborts instead
of returning a Rational (see the counterexample); for well-formed
denominators this is the only aborting case and add, sub, mul never abort. -/
theorem c1_arith_promotion :
    (∀ n1 d1 n2 d2 : ℤ,
        LinNum.add (.Rational n1 d1) (.Rational n2 d2)
          = LinNum.new_rational (n1 * d2 + n2 * d1) (d1 * d2) ∧
        LinNum.sub (.Rational n1 d1) (.Rational n2 d2)
          = LinNum.new_rational (n1 * d2 - n2 * d1) (d1 * d2) ∧
        LinNum.mul (.Rational n1 d1) (.Rational n2 d2)
          = LinNum.new_rational (n1 * n2) (d1 * d2) ∧
        LinNum.div (.Rational n1 d1) (.Rational n2 d2)
          = LinNum.new_rational (n1 * d2) (d1 * n2))
  ∧ (∀ n d : ℤ, (LinNum.new_rational n d).is_rational = true)
  ∧ (∀ v1 : F64, ∀ n2 d2 : ℤ,
        LinNum.add (.Real v1) (.Rational n2 d2) = .Real (v1 + ratToF64 n2 d2) ∧
        LinNum.sub (.Real v1) (.Rational n2 d2) = .Real (v1 - ratToF64 n2 d2) ∧
        LinNum.mul (.Real v1) (.Rational n2 d2) = .Real (v1 * ratToF64 n2 d2) ∧
        LinNum.div (.Real v1) (.Rational n2 d2) = .Real (v1 / ratToF64 n2 d2))
  ∧ (∀ n1 d1 : ℤ, ∀ v2 : F64,
        LinNum.add (.Rational n1 d1) (.Real v2) = .Real (ratToF64 n1 d1 + v2) ∧
        LinNum.sub (.Rational n1 d1) (.Real v2) = .Real (ratToF64 n1 d1 - v2) ∧
        LinNum.mul (.Rational n1 d1) (.Real v2) = .Real (ratToF64 n1 d1 * v2) ∧
        LinNum.div (.Rational n1 d1) (.Real v2) = .Real (ratToF64 n1 d1 / v2))
  ∧ (∀ v1 v2 : F64,
        LinNum.add (.Real v1) (.Real v2) = .Real (v1 + v2) ∧
        LinNum.sub (.Real v1) (.Real v2) = .Real (v1 - v2) ∧
        LinNum.mul (.Real v1) (.Real v2) = .Real (v1 * v2) ∧
        LinNum.div (.Real v1) (.Real v2) = .Real (v1 / v2))
  ∧ (∀ n1 d1 n2 d2 : ℤ, d1 ≠ 0 → d2 ≠ 0 →
        LinNum.addAborts (.Rational n1 d1) (.Rational n2 d2) = false ∧
        LinNum.subAborts (.Rational n1 d1) (.Rational n2 d2) = false ∧
        LinNum.mulAborts (.Rational n1 d1) (.Rational n2 d2) = false ∧
        (LinNum.divAborts (.Rational n1 d1) (.Rational n2 d2) = true
          ↔ (n1 = 0 ∧ n2 = 0))) := by
  refine ⟨fun n1 d1 n2 d2 => ⟨rfl, rfl, rfl, rfl⟩,
    fun n d => rfl,
    fun v1 n2 d2 => ⟨rfl, rfl, rfl, rfl⟩,
    fun n1 d1 v2 => ⟨rfl, rfl, rfl, rfl⟩,
    fun v1 v2 => ⟨rfl, rfl, rfl, rfl⟩,
    fun n1 d1 n2 d2 h1 h2 => ⟨?_, ?_, ?_, ?_⟩⟩
  · exact rationalAborts_false _ _ (fun hc => mul_ne_zero h1 h2 hc.2)
  · exact rationalAborts_false _ _ (fun hc => mul_ne_zero h1 h2 hc.2)
  · exact rationalAborts_false _ _ (fun hc => mul_ne_zero h1 h2 hc.2)
  · show rationalAborts (n1 * d2) (d1 * n2) = true ↔ (n1 = 0 ∧ n2 = 0)
    rw [rationalAborts_iff]
    constructor
    · rintro ⟨ha, hb⟩
      constructor
      · rcases mul_eq_zero.mp ha with h | h
        · exact h
        · exact absurd h h2
      · rcases mul_eq_zero.mp hb with h | h
        · exact absurd h h1
        · exact h
    · rintro ⟨ha, hb⟩
      rw [ha, hb]
      constructor <;> ring

/-- C1 counterexample: dividing the well-formed Rational 0/1 by the
well-formed Rational 0/1 hits the zero-gcd division inside the rational
constructor, so the program aborts instead of producing a Rational as the
claim states. -/
theorem c1_arith_promotion_cex :
    LinNum.divAborts (.Rational 0 1) (.Rational 0 1) = true ∧
      (LinNum.Rational 0 1).isGoodRat = true := by
  decide

/-- C1 witness: the abort-freedom part of the amended claim evaluated at
the concrete well-formed Rationals 1/2 and 1/3. -/
theorem c1_arith_promotion_w :
    LinNum.addAborts (.Rational 1 2) (.Rational 1 3) = false ∧
      LinNum.subAborts (.Rational 1 2) (.Rational 1 3) = false ∧
      LinNum.mulAborts (.Rational 1 2) (.Rational 1 3) = false ∧
      (LinNum.divAborts (.Rational 1 2) (.Rational 1 3) = true
        ↔ ((1 : ℤ) = 0 ∧ (1 : ℤ) = 0)) :=
  c1_arith_promotion.2.2.2.2.2 1 2 1 3 (by decide) (by decide)

/-- C2: for d nonzero, rational(n, d) stores a numerator and denominator
with gcd 1; amended: the scaling equality rational(k n, k d) = rational(n, d)
holds for positive k, but fails for negative k because the stored pair
picks up the sign of k (see the counterexample). -/
theorem c2_lowest_terms (n d k : ℤ) (hd : d ≠ 0) :
    Int.gcd (LinNum.new_rational n d).ratNum (LinNum.new_rational n d).ratDen = 1 ∧
      (0 < k → LinNum.new_rational (k * n) (k * d) = LinNum.new_rational n d) := by
  constructor
  · exact new_rational_gcd_one n d (fun hc => hd hc.2)
  · intro hk
    exact new_rational_scale n d k hk

/-- C2 counterexample: with n = 1, d = 2 and the nonzero scale factor
k = -1, rational(k n, k d) stores (-1, -2) while rational(n, d) stores
(1, 2), so the claimed equality for every nonzero k is false. -/
theorem c2_lowest_terms_cex :
    ((-1 : ℤ) ≠ 0) ∧
      LinNum.new_rational ((-1) * 1) ((-1) * 2) ≠ LinNum.new_rational 1 2 := by
  decide

/-- C2 witness: the amended claim at n = 6, d = 4, k = 3. -/
theorem c2_lowest_terms_w :
    Int.gcd (LinNum.new_rational 6 4).ratNum (LinNum.new_rational 6 4).ratDen = 1 ∧
      LinNum.new_rational (3 * 6) (3 * 4) = LinNum.new_rational 6 4 :=
  ⟨(c2_lowest_terms 6 4 3 (by decide)).1,
    (c2_lowest_terms 6 4 3 (by decide)).2 (by decide)⟩

/-- C10: for every nonzero n, rational(n, 0) does not abort and stores the
Rational sign(n) / 0, silently violating the nonzero-denominator invariant;
the constructor aborts (divides by gcd 0) exactly at rational(0, 0). -/
theorem c10_zero_denominator :
    (∀ n : ℤ, n ≠ 0 → rationalAborts n 0 = false ∧
      LinNum.new_rational n 0 = .Rational n.sign 0)
  ∧ (∀ n d : ℤ, rationalAborts n d = true ↔ (n = 0 ∧ d = 0)) := by
  constructor
  · intro n hn
    constructor
    · exact rationalAborts_false n 0 (fun hc => hn hc.1)
    · unfold LinNum.new_rational
      have hg : Int.gcd n 0 = n.natAbs := Int.gcd_zero_right n
      have hna : (n.natAbs : ℤ) ≠ 0 := by
        intro h
        exact hn (by exact_mod_cast Int.natAbs_eq_zero.mp (by exact_mod_cast h))
      have h1 : n.tdiv (Int.gcd n 0 : ℤ) = n.sign := by
        rw [hg]
        have hc := Int.mul_tdiv_cancel n.sign hna
        rw [Int.sign_mul_natAbs n] at hc
        exact hc
      have h2 : (0 : ℤ).tdiv (Int.gcd n 0 : ℤ) = 0 := Int.zero_tdiv _
      rw [h1, h2]
  · exact rationalAborts_iff

/-- C10 witness: at the concrete nonzero numerator -6, rational(-6, 0)
does not abort and stores sign(-6) = -1 over denominator 0. -/
theorem c10_zero_denominator_w :
    rationalAborts (-6) 0 = false ∧
      LinNum.new_rational (-6) 0 = .Rational (Int.sign (-6)) 0 :=
  c10_zero_denominator.1 (-6) (by decide)

/-- C3: determinant returns the DimensionMismatch error exactly when
rows differ from cols; on a square matrix it computes the cofactor
expansion along the first row: the single cell for size 1, the direct
formula a d - b c for size 2, and for size at least 3 the left-to-right
accumulated sum over columns i of cell (0, i) times the determinant of the
minor obtained by deleting row 0 and column i times the alternating sign
(+1 for even i, -1 for odd i, as the Real sign factor the code builds). -/
theorem c3_determinant_cofactor (m : LinMatrix) :
    (m.determinant = .error .DimensionMismatch ↔ m.rows ≠ m.cols)
  ∧ (m.rows = 1 → m.rows = m.cols → m.determinant = .ok (m.get 0 0))
  ∧ (m.rows = 2 → m.rows = m.cols →
      m.determinant = .ok (m.get 0 0 * m.get 1 1 - m.get 0 1 * m.get 1 0))
  ∧ (3 ≤ m.rows → m.rows = m.cols →
      (∀ i, i < m.cols →
        (subMatrixAt m i).rows = m.rows - 1 ∧
        (subMatrixAt m i).cols = m.cols - 1 ∧
        (∀ t c2, t < m.rows - 1 → c2 < m.cols - 1 →
          (subMatrixAt m i).get t c2
            = m.get (t + 1) (if c2 < i then c2 else c2 + 1)) ∧
        (subMatrixAt m i).determinant = .ok (minorDet m i))
      ∧ m.determinant = .ok (detClaimSum m m.cols)) := by
  refine ⟨determinant_error_iff m,
    fun h1 hsq => determinant_one m h1 hsq,
    fun h2 hsq => determinant_two m h2 hsq,
    fun h3 hsq => ⟨?_, determinant_three m hsq h3⟩⟩
  intro i hi
  exact ⟨subMatrixAt_rows m i, subMatrixAt_cols m i,
    fun t c2 ht hc2 => subMatrixAt_get m i hi t c2 ht hc2,
    determinant_sub_ok m hsq i⟩

/-- C3 witness: the cofactor characterization applied to the concrete
square matrices exm2 (size 2) and exm3 (size 3), and to a nonsquare 2 x 3
matrix for the error direction. -/
theorem c3_determinant_cofactor_w :
    exm2.determinant = .ok (exm2.get 0 0 * exm2.get 1 1 - exm2.get 0 1 * exm2.get 1 0) ∧
      exm3.determinant = .ok (detClaimSum exm3 exm3.cols) ∧
      (⟨2, 3, [.Rational 1 1, .Rational 2 1, .Rational 3 1,
               .Rational 4 1, .Rational 5 1, .Rational 6 1]⟩ : LinMatrix).determinant
        = .error .DimensionMismatch :=
  ⟨(c3_determinant_cofactor exm2).2.2.1 rfl rfl,
    ((c3_determinant_cofactor exm3).2.2.2 (by decide) rfl).2,
    (c3_determinant_cofactor _).1.mpr (by decide)⟩

/-- C4: amended: on a square matrix of size 1 or 2 whose cells are all
Rational with nonzero denominators, determinant stays exact: the result is
a Rational scalar whose denoted value is the mathematical determinant; for
size at least 3 the Real(0.0) accumulator and the Real sign factors force
a Real (floating) result even on all-Rational input, refuting the original
claim (see the counterexample). -/
theorem c4_exact_small_det (m : LinMatrix)
    (hlen : m.data.length = m.rows * m.cols) (hsq : m.rows = m.cols)
    (h1 : 1 ≤ m.rows) (h2 : m.rows ≤ 2)
    (hcells : ∀ x ∈ m.data, x.isGoodRat = true) :
    (detVal m).is_rational = true ∧ (detVal m).ratVal = mdet2 m ∧
      m.determinant = .ok (detVal m) := by
  rcases Nat.lt_or_ge m.rows 2 with hr1 | hr2
  · have hrow : m.rows = 1 := by omega
    have hdet := determinant_one m hrow hsq
    have hdv : detVal m = m.get 0 0 := by
      unfold detVal
      rw [hdet]
    have hmem : m.get 0 0 ∈ m.data := LinMatrix.get_mem m 0 0
      (by rw [hlen, ← hsq, hrow]; omega)
    have hgood := hcells _ hmem
    refine ⟨?_, ?_, ?_⟩
    · rw [hdv]; exact good_is_rational _ hgood
    · rw [hdv]
      unfold mdet2
      rw [if_pos hrow]
    · rw [hdet, hdv]
  · have hrow : m.rows = 2 := by omega
    have hdet := determinant_two m hrow hsq
    have hcol : m.cols = 2 := by omega
    have hlen4 : m.data.length = 4 := by rw [hlen, hrow, hcol]
    have hm00 : m.get 0 0 ∈ m.data := LinMatrix.get_mem m 0 0 (by rw [hlen4, hcol]; omega)
    have hm01 : m.get 0 1 ∈ m.data := LinMatrix.get_mem m 0 1 (by rw [hlen4, hcol]; omega)
    have hm10 : m.get 1 0 ∈ m.data := LinMatrix.get_mem m 1 0 (by rw [hlen4, hcol]; omega)
    have hm11 : m.get 1 1 ∈ m.data := LinMatrix.get_mem m 1 1 (by rw [hlen4, hcol]; omega)
    obtain ⟨hg1, hv1⟩ := mul_good (m.get 0 0) (m.get 1 1)
      (hcells _ hm00) (hcells _ hm11)
    obtain ⟨hg2, hv2⟩ := mul_good (m.get 0 1) (m.get 1 0)
      (hcells _ hm01) (hcells _ hm10)
    obtain ⟨hg3, hv3⟩ := sub_good _ _ hg1 hg2
    have hdv : detVal m = (m.get 0 0 * m.get 1 1).sub (m.get 0 1 * m.get 1 0) := by
      unfold detVal
      rw [hdet]
      rfl
    refine ⟨?_, ?_, ?_⟩
    · rw [hdv]; exact good_is_rational _ hg3
    · rw [hdv]
      have hstep : ((m.get 0 0 * m.get 1 1).sub (m.get 0 1 * m.get 1 0)).ratVal
          = ((m.get 0 0).mul (m.get 1 1)).ratVal
            - ((m.get 0 1).mul (m.get 1 0)).ratVal := hv3
      rw [hstep, hv1, hv2]
      unfold mdet2
      rw [if_neg (by omega)]
    · rw [hdet, hdv]
      rfl

/-- C4 counterexample: the 3 x 3 matrix of the integer Rationals 1..9 has
every cell Rational, yet determinant returns a Real scalar (the floating
accumulator and sign promote every term), so the claimed Rational result
is false for size 3. -/
theorem c4_exact_small_det_cex :
    exm3.data.all LinNum.is_rational = true ∧ exm3.rows = exm3.cols ∧
      (detVal exm3).is_rational = false := by
  decide

/-- C4 witness: the amended exactness statement at the concrete 2 x 2
all-Rational matrix exm2. -/
theorem c4_exact_small_det_w :
    (detVal exm2).is_rational = true ∧ (detVal exm2).ratVal = mdet2 exm2 ∧
      exm2.determinant = .ok (detVal exm2) :=
  c4_exact_small_det exm2 (by decide) rfl (by decide) (by decide) (by decide)

/-- C5: elementwise add and sub return the DimensionMismatch failure value
exactly when the two shapes differ and otherwise a same-shaped matrix of
elementwise scalar sums or differences; matrix multiplication returns the
DimensionMismatch failure value exactly when the left cols differ from the
right rows and otherwise the rows x cols matrix of row-by-column dot
products whose accumulator starts at Real(0.0); all these errors are
ordinary return values of the embedded total functions, never aborts. -/
theorem c5_dimension_errors (a b : LinMatrix) :
    (a.addM b = .error .DimensionMismatch ↔ ¬(a.rows = b.rows ∧ a.cols = b.cols))
  ∧ (a.subM b = .error .DimensionMismatch ↔ ¬(a.rows = b.rows ∧ a.cols = b.cols))
  ∧ (a.mulM b = .error .DimensionMismatch ↔ a.cols ≠ b.rows)
  ∧ (∀ c, a.addM b = .ok c → c.rows = a.rows ∧ c.cols = a.cols ∧
      ∀ i j, i < a.rows → j < a.cols → c.get i j = (a.get i j).add (b.get i j))
  ∧ (∀ c, a.subM b = .ok c → c.rows = a.rows ∧ c.cols = a.cols ∧
      ∀ i j, i < a.rows → j < a.cols → c.get i j = (a.get i j).sub (b.get i j))
  ∧ (∀ c, a.mulM b = .ok c → c.rows = a.rows ∧ c.cols = b.cols ∧
      ∀ i j, i < a.rows → j < b.cols → c.get i j = dotLoop a b i j a.cols)
  ∧ (∀ i j : ℕ, dotLoop a b i j 0 = .Real f0) := by
  refine ⟨addM_error_iff a b, subM_error_iff a b, mulM_error_iff a b,
    ?_, ?_, ?_, fun i j => rfl⟩
  · intro c h
    obtain ⟨_, _, h3, h4, _, h6⟩ := addM_ok a b c h
    exact ⟨h3, h4, h6⟩
  · intro c h
    obtain ⟨_, _, h3, h4, _, h6⟩ := subM_ok a b c h
    exact ⟨h3, h4, h6⟩
  · intro c h
    obtain ⟨_, h2, h3, _, h5⟩ := mulM_ok a b c h
    exact ⟨h2, h3, h5⟩

/-- C5 witness: a 2 x 2 by 1 x 2 product returns the DimensionMismatch
value, and the successful elementwise sum of exm2 with itself has the
elementwise cell semantics at cell (0, 1). -/
theorem c5_dimension_errors_w :
    exm2.mulM (⟨1, 2, [.Rational 5 1, .Rational 6 1]⟩ : LinMatrix)
        = .error .DimensionMismatch ∧
      (⟨2, 2, [.Rational 2 1, .Rational 4 1, .Rational 6 1, .Rational 8 1]⟩
          : LinMatrix).get 0 1 = (exm2.get 0 1).add (exm2.get 0 1) :=
  ⟨(c5_dimension_errors exm2 _).2.2.1.mpr (by decide),
    ((c5_dimension_errors exm2 exm2).2.2.2.1 _ (by decide)).2.2 0 1
      (by decide) (by decide)⟩

/-- C6: amended: cell access through get, set or tuple indexing is a fatal
error exactly when the flat index row * cols + col reaches past the data
length rows * cols; a row index at or past rows always aborts, but an
out-of-range column with a small enough flat index silently aliases into a
later row instead of aborting (see the counterexample). -/
theorem c6_flat_index_bounds (m : LinMatrix) (r c : ℕ) (v : LinNum)
    (hlen : m.data.length = m.rows * m.cols) :
    (m.getq r c = none ↔ m.rows * m.cols ≤ r * m.cols + c)
  ∧ (m.setq r c v = none ↔ m.rows * m.cols ≤ r * m.cols + c)
  ∧ (m.rows ≤ r → m.getq r c = none)
  ∧ (m.rows ≤ r → m.setq r c v = none) := by
  have hget : m.getq r c = none ↔ m.rows * m.cols ≤ r * m.cols + c := by
    unfold LinMatrix.getq
    rw [List.getElem?_eq_none_iff, hlen]
  have hset : m.setq r c v = none ↔ m.rows * m.cols ≤ r * m.cols + c := by
    unfold LinMatrix.setq
    by_cases h : r * m.cols + c < m.data.length
    · rw [if_pos h]
      rw [hlen] at h
      exact ⟨fun hc => Option.noConfusion hc, fun hc => by omega⟩
    · rw [if_neg h]
      rw [hlen] at h
      exact ⟨fun _ => by omega, fun _ => rfl⟩
  have hrow : m.rows ≤ r → m.rows * m.cols ≤ r * m.cols + c := by
    intro hr
    calc m.rows * m.cols ≤ r * m.cols := Nat.mul_le_mul_right m.cols hr
      _ ≤ r * m.cols + c := Nat.le_add_right _ _
  exact ⟨hget, hset, fun hr => hget.mpr (hrow hr), fun hr => hset.mpr (hrow hr)⟩

/-- C6 counterexample: on the 2 x 2 matrix exm2, reading position (0, 2)
has column index 2 at the column bound, yet it silently returns the cell
stored at flat index 2 (the cell (1, 0) holding 3), and writing (0, 2)
silently overwrites that cell; the claimed fatal error does not occur. -/
theorem c6_flat_index_bounds_cex :
    exm2.getq 0 2 = some (.Rational 3 1) ∧ exm2.cols ≤ 2 ∧
      exm2.setq 0 2 (.Rational 7 1)
        = some ⟨2, 2, [.Rational 1 1, .Rational 2 1, .Rational 7 1, .Rational 4 1]⟩ := by
  decide

/-- C6 witness: a row index past the row bound of exm2 aborts the read. -/
theorem c6_flat_index_bounds_w : exm2.getq 5 0 = none :=
  (c6_flat_index_bounds exm2 5 0 (.Rational 1 1) (by decide)).2.2.1 (by decide)

/-- C7: amended: every matrix built by new, fromRows, transpose, add, sub,
matrix multiply, scalar multiply or divide, or mutated by set satisfies
data length = rows * cols; the claimed bounds rows, cols at least 1 are
not enforced: new accepts zero dimensions (see the counterexample). -/
theorem c7_shape_invariant :
    (∀ R C : ℕ, (LinMatrix.new R C).rows = R ∧ (LinMatrix.new R C).cols = C ∧
      (LinMatrix.new R C).data.length = R * C)
  ∧ (∀ l m2, LinMatrix.fromRows l = some m2 → m2.data.length = m2.rows * m2.cols)
  ∧ (∀ m : LinMatrix, m.transpose.rows = m.cols ∧ m.transpose.cols = m.rows ∧
      m.transpose.data.length = m.transpose.rows * m.transpose.cols)
  ∧ (∀ a b c : LinMatrix, a.addM b = .ok c → c.data.length = c.rows * c.cols)
  ∧ (∀ a b c : LinMatrix, a.subM b = .ok c → c.data.length = c.rows * c.cols)
  ∧ (∀ a b c : LinMatrix, a.mulM b = .ok c → c.data.length = c.rows * c.cols)
  ∧ (∀ (m : LinMatrix) (s : LinNum),
      (m.scalarMul s).rows = m.rows ∧ (m.scalarMul s).cols = m.cols ∧
      (m.scalarMul s).data.length = (m.scalarMul s).rows * (m.scalarMul s).cols ∧
      (m.scalarDiv s).rows = m.rows ∧ (m.scalarDiv s).cols = m.cols ∧
      (m.scalarDiv s).data.length = (m.scalarDiv s).rows * (m.scalarDiv s).cols)
  ∧ (∀ (m : LinMatrix) (r c : ℕ) (v : LinNum),
      (m.set r c v).rows = m.rows ∧ (m.set r c v).cols = m.cols ∧
      (m.set r c v).data.length = m.data.length) := by
  refine ⟨fun R C => ⟨rfl, rfl, LinMatrix.new_length R C⟩,
    fun l m2 h => fromRows_invariant l m2 h, ?_, ?_, ?_, ?_, ?_, ?_⟩
  · intro m
    refine ⟨transpose_rows m, transpose_cols m, ?_⟩
    rw [transpose_length, transpose_rows, transpose_cols]
  · intro a b c h
    obtain ⟨_, _, h3, h4, h5, _⟩ := addM_ok a b c h
    rw [h5, h3, h4]
  · intro a b c h
    obtain ⟨_, _, h3, h4, h5, _⟩ := subM_ok a b c h
    rw [h5, h3, h4]
  · intro a b c h
    obtain ⟨_, h2, h3, h4, _⟩ := mulM_ok a b c h
    rw [h4, h2, h3]
  · intro m s
    refine ⟨fillMatrix_rows .., fillMatrix_cols .., ?_,
      fillMatrix_rows .., fillMatrix_cols .., ?_⟩
    · unfold LinMatrix.scalarMul
      rw [fillMatrix_length, fillMatrix_rows, fillMatrix_cols]
    · unfold LinMatrix.scalarDiv
      rw [fillMatrix_length, fillMatrix_rows, fillMatrix_cols]
  · intro m r c v
    exact ⟨rfl, rfl, List.length_set ..⟩

/-- C7 counterexample: new(0, 5) is accepted and builds a matrix with zero
rows, so the claimed invariant rows at least 1 fails at construction. -/
theorem c7_shape_invariant_cex :
    (LinMatrix.new 0 5).rows = 0 ∧ ¬ 1 ≤ (LinMatrix.new 0 5).rows := by
  decide

/-- C7 witness: the fromRows clause of the amended claim at the concrete
one-cell literal. -/
theorem c7_shape_invariant_w :
    (⟨1, 1, [LinNum.Rational 1 1]⟩ : LinMatrix).data.length
      = (⟨1, 1, [LinNum.Rational 1 1]⟩ : LinMatrix).rows
        * (⟨1, 1, [LinNum.Rational 1 1]⟩ : LinMatrix).cols :=
  c7_shape_invariant.2.1 [[.Rational 1 1]] _ (by decide)

/-- C8: transpose is an involution on every matrix satisfying the length
invariant, and it produces the cols x rows matrix whose cell (j, i) is the
original cell (i, j). -/
theorem c8_transpose_involution (m : LinMatrix)
    (hlen : m.data.length = m.rows * m.cols) :
    m.transpose.transpose = m ∧ m.transpose.rows = m.cols ∧
      m.transpose.cols = m.rows ∧
      ∀ i j, i < m.rows → j < m.cols → m.transpose.get j i = m.get i j :=
  ⟨transpose_involution m hlen, transpose_rows m, transpose_cols m,
    fun i j hi hj => transpose_get m i j hi hj⟩

/-- C8 witness: the involution at the concrete matrix exm2. -/
theorem c8_transpose_involution_w : exm2.transpose.transpose = exm2 :=
  (c8_transpose_involution exm2 (by decide)).1

/-- C9: every cell of a successful matrix product is a Real scalar, never
a Rational, even when both operands are entirely Rational, because each
accumulator starts at Real(0.0) and the promotion rule keeps it Real. -/
theorem c9_product_cells_real (a b c : LinMatrix) (h : a.mulM b = .ok c) :
    ∀ x ∈ c.data, x.is_real = true :=
  mulM_all_real a b c h

/-- C9 witness: the single cell of the product of the all-Rational 1 x 1
matrices exa1 and exb1 is Real. -/
theorem c9_product_cells_real_w :
    ((exa1.mulRes exb1).get 0 0).is_real = true := by
  apply c9_product_cells_real exa1 exb1 (exa1.mulRes exb1) rfl
  exact List.getElem?_mem
    (show (exa1.mulRes exb1).data[0]?
        = some ((exa1.mulRes exb1).get 0 0) from rfl)
